import Mathlib

/-!
Verification of the enmime MIME encoder (`encode.go`,
`internal/stringutil/addr.go`) against its natural-language specification.

Shallow embedding conventions:
* Go byte slices (`[]byte`) are `List Nat`, each element a byte value.
* Go strings are Lean `String`s (or `List Char` where character-level
  reasoning is needed); the `[]byte(s)` conversion is modelled as the list
  of character codes, which coincides with Go's UTF-8 bytes on ASCII data.
* `textproto.MIMEHeader` (a map from canonical header name to a list of
  values) is an association list `List (String × List String)` whose keys
  are kept unique by the `hSet`/`hDel` operations; key canonicalisation is
  modelled as the identity (the encoder only ever uses already-canonical
  names).
* Functions of the Go standard library that the encoder calls
  (`mime.FormatMediaType`, `mime.BEncoding.Encode`, `mime.QEncoding.Encode`,
  `mime/quotedprintable`, `net/mail.Address.String`, time formatting) and
  repository helpers whose source is external to the encoder
  (`coding.ToIDHeader`, `stringutil.ToASCII`, `stringutil.UUID`) are kept
  abstract as fields of an `Externals` record that parameterises the
  embedding.
* Fallible Go code (`error` returns) becomes `Except String`.
-/

namespace Enmime

/-- `TransferEncoding` with constants `TE7Bit`, `TEQuoted`, `TEBase64`
    (iota byte constants in the source). -/
inductive TransferEncoding where
  | te7Bit
  | teQuoted
  | teBase64
deriving DecidableEq, Repr

/-- `b64Percent`: percent of non-ASCII characters tolerated before
    switching from quoted-printable to base64. -/
def b64Percent : Nat := 20

/-- CRLF as bytes (`crnl` in the source). -/
def crnlB : List Nat := [13, 10]

/-- `[]byte(s)` for ASCII strings: the list of character codes. -/
def strBytes (s : String) : List Nat := s.toList.map Char.toNat

/-- The loop of `SelectTransferEncoding`: scans bytes, counting
    "binary" bytes in `bincount`, returning `TEBase64` as soon as the
    count reaches `threshold`.  A byte is counted when it is outside
    `0x20..0x7E` and is not a tab; when `quoteLineBreaks` is false,
    CR and LF are skipped (`continue`). -/
def steGo (quoteLineBreaks : Bool) (threshold : Nat) :
    Nat → List Nat → TransferEncoding
  | bincount, [] => if bincount = 0 then .te7Bit else .teQuoted
  | bincount, b :: rest =>
    if (b < 32 ∨ 126 < b) ∧ b ≠ 9 then
      if ¬quoteLineBreaks ∧ (b = 13 ∨ b = 10) then
        steGo quoteLineBreaks threshold bincount rest
      else if bincount + 1 ≥ threshold then .teBase64
      else steGo quoteLineBreaks threshold (bincount + 1) rest
    else steGo quoteLineBreaks threshold bincount rest

/-- `SelectTransferEncoding`: scans content for non-ASCII characters and
    selects an encoding.  Empty content is 7bit; otherwise the scan runs
    with `threshold = b64Percent * len(content) / 100`. -/
def selectTransferEncoding (content : List Nat) (quoteLineBreaks : Bool) :
    TransferEncoding :=
  if content.isEmpty then .te7Bit
  else steGo quoteLineBreaks (b64Percent * content.length / 100) 0 content

/-- Whether a byte is counted by the classifier's scan: outside printable
    ASCII and not tab, and (when line breaks are not quoted) not CR/LF. -/
def nonPlain (quoteLineBreaks : Bool) (b : Nat) : Prop :=
  ((b < 32 ∨ 126 < b) ∧ b ≠ 9) ∧ ¬(¬quoteLineBreaks ∧ (b = 13 ∨ b = 10))

instance (qlb : Bool) (b : Nat) : Decidable (nonPlain qlb b) := by
  unfold nonPlain; infer_instance

/-- Total count of non-plain bytes in a byte string. -/
def countNonPlain (quoteLineBreaks : Bool) (l : List Nat) : Nat :=
  (l.filter (fun b => decide (nonPlain quoteLineBreaks b))).length

/-- The spec's full-scan variant of the classifier, written from the
    spec's words: compute the truncated threshold `20% * len(content) / 100`,
    count every non-plain byte of the whole content, then return Identity
    when the count is zero, Base64 when it is nonzero and at least the
    threshold, and QuotedPrintable otherwise.  Used only as the comparison
    point of the refinement claim about the early exit. -/
def selectTransferEncodingFullScan (content : List Nat)
    (quoteLineBreaks : Bool) : TransferEncoding :=
  if content.isEmpty then .te7Bit
  else
    let threshold := b64Percent * content.length / 100
    let k := countNonPlain quoteLineBreaks content
    if k = 0 then .te7Bit
    else if k ≥ threshold then .teBase64
    else .teQuoted

theorem countNonPlain_cons (qlb : Bool) (b : Nat) (l : List Nat) :
    countNonPlain qlb (b :: l) =
      (if nonPlain qlb b then 1 else 0) + countNonPlain qlb l := by
  by_cases h : nonPlain qlb b <;>
    simp [countNonPlain, List.filter_cons, h, Nat.add_comm]

/-- Closed form of the scanning loop: it returns Base64 exactly when some
    increment reaches the threshold, which (the count being monotone)
    happens exactly when the final count does. -/
theorem steGo_spec (qlb : Bool) (t : Nat) :
    ∀ (l : List Nat) (k : Nat),
      steGo qlb t k l =
        (if countNonPlain qlb l = 0 then
           (if k = 0 then TransferEncoding.te7Bit else .teQuoted)
         else if k + countNonPlain qlb l ≥ t then .teBase64
         else .teQuoted) := by
  intro l
  induction l with
  | nil => intro k; simp [steGo, countNonPlain]
  | cons b rest ih =>
    intro k
    rw [countNonPlain_cons]
    by_cases hnp : nonPlain qlb b
    · have h1 : (b < 32 ∨ 126 < b) ∧ b ≠ 9 := hnp.1
      have h2 : ¬(¬qlb ∧ (b = 13 ∨ b = 10)) := hnp.2
      rw [steGo, if_pos h1, if_neg h2]
      have hcnt0 : ¬((if nonPlain qlb b then 1 else 0) +
          countNonPlain qlb rest = 0) := by simp [hnp]
      rw [if_neg hcnt0, if_pos hnp]
      by_cases hth : k + 1 ≥ t
      · rw [if_pos hth,
          if_pos (show k + (1 + countNonPlain qlb rest) ≥ t by omega)]
      · rw [if_neg hth, ih (k + 1)]
        by_cases hc : countNonPlain qlb rest = 0
        · rw [if_pos hc, if_neg (show ¬(k + 1 = 0) by omega),
            if_neg (show ¬(k + (1 + countNonPlain qlb rest) ≥ t) by omega)]
        · rw [if_neg hc,
            show k + 1 + countNonPlain qlb rest =
              k + (1 + countNonPlain qlb rest) by omega]
    · have hsplit : ¬((b < 32 ∨ 126 < b) ∧ b ≠ 9) ∨
          (¬qlb ∧ (b = 13 ∨ b = 10)) := by
        by_cases hA : (b < 32 ∨ 126 < b) ∧ b ≠ 9
        · right
          by_contra hB
          exact hnp ⟨hA, hB⟩
        · left; exact hA
      rcases hsplit with hA | hB
      · rw [steGo, if_neg hA, ih k]
        simp only [if_neg hnp, Nat.zero_add]
      · have hA : (b < 32 ∨ 126 < b) ∧ b ≠ 9 := by
          rcases hB with ⟨hq, hcr | hlf⟩ <;> subst_vars <;> simp
        rw [steGo, if_pos hA, if_pos hB, ih k]
        simp only [if_neg hnp, Nat.zero_add]

/-- C5: For every byte string `c` (including the empty string),
    `SelectTransferEncoding(c, false)` returns `TE7Bit` if and only if
    every byte of `c` is printable ASCII (`0x20`–`0x7E`), tab, CR or LF. -/
theorem c5_te7bit_iff_plain (c : List Nat) :
    selectTransferEncoding c false = .te7Bit ↔
      ∀ b ∈ c, (32 ≤ b ∧ b ≤ 126) ∨ b = 9 ∨ b = 13 ∨ b = 10 := by
  by_cases hc : c.isEmpty
  · rw [List.isEmpty_iff] at hc
    subst hc
    simp [selectTransferEncoding]
  · rw [selectTransferEncoding, if_neg hc, steGo_spec]
    have hplain : (countNonPlain false c = 0) ↔
        ∀ b ∈ c, (32 ≤ b ∧ b ≤ 126) ∨ b = 9 ∨ b = 13 ∨ b = 10 := by
      rw [countNonPlain, List.length_eq_zero, List.filter_eq_nil_iff]
      constructor
      · intro h b hb
        have := h b hb
        rw [decide_eq_true_iff] at this
        · unfold nonPlain at this
          by_contra hcon
          push_neg at hcon
          apply this
          constructor
          · constructor
            · omega
            · omega
          · simp only [Bool.not_eq_true, not_and, not_or]
            intro _
            constructor <;> omega
      · intro h b hb
        have := h b hb
        rw [decide_eq_true_iff]
        unfold nonPlain
        rintro ⟨⟨hrange, htab⟩, hcrlf⟩
        simp only [Bool.not_eq_true, not_and, not_or] at hcrlf
        rcases this with hp | h9 | h13 | h10
        · omega
        · exact htab h9
        · exact (hcrlf (by simp)).1 h13
        · exact (hcrlf (by simp)).2 h10
    by_cases hz : countNonPlain false c = 0
    · rw [if_pos hz, if_pos rfl]
      exact ⟨fun _ => hplain.mp hz, fun _ => rfl⟩
    · rw [if_neg hz]
      constructor
      · intro h
        by_cases hth : 0 + countNonPlain false c ≥
            b64Percent * c.length / 100
        · rw [if_pos hth] at h; exact absurd h (by simp)
        · rw [if_neg hth] at h; exact absurd h (by simp)
      · intro h
        exact absurd (hplain.mpr h) hz

/-- C6: the classifier's early exit never changes the classification:
    `SelectTransferEncoding` agrees with the spec's full-scan variant on
    every content and both values of the quote-line-breaks flag. -/
theorem c6_early_exit_refines_full_scan (c : List Nat) (qlb : Bool) :
    selectTransferEncoding c qlb = selectTransferEncodingFullScan c qlb := by
  by_cases hc : c.isEmpty
  · simp [selectTransferEncoding, selectTransferEncodingFullScan, hc]
  · rw [selectTransferEncoding, if_neg hc, steGo_spec,
      selectTransferEncodingFullScan, if_neg hc]
    by_cases hz : countNonPlain qlb c = 0
    · rw [if_pos hz, if_pos rfl, if_pos hz]
    · rw [if_neg hz, if_neg hz, Nat.zero_add]

/-- `textproto.MIMEHeader`: map from canonical header name to values,
    modelled as an association list with unique keys. -/
abbrev Headers := List (String × List String)

/-- Map lookup (`p.Header[k]`); a missing key yields the empty value
    list, matching Go's zero value for a missing map entry. -/
def hGet (h : Headers) (k : String) : List String :=
  match h with
  | [] => []
  | e :: rest => if e.1 = k then e.2 else hGet rest k

/-- `Header.Del(k)`: remove the entry for `k`. -/
def hDel (h : Headers) (k : String) : Headers :=
  h.filter (fun e => e.1 != k)

/-- `Header.Set(k, v)`: replace the entry for `k` by the single value
    `v`.  Position in the list is irrelevant: the encoder iterates keys
    in sorted order. -/
def hSet (h : Headers) (k v : String) : Headers :=
  hDel h k ++ [(k, [v])]

/-- The `Part` tree node: header map, content bytes, the string
    attributes read by the encoder, and the first-child / next-sibling
    links.  `FileModDate` (a `time.Time`) is modelled as `Option String`
    carrying the already-formatted RFC 822 date, `none` standing for the
    zero time; the `Parent` back-pointer is never read by the encoder and
    is omitted. -/
inductive Part where
  | mk (header : Headers) (content : List Nat)
       (contentType : String) (charset : String) (disposition : String)
       (fileName : String) (fileModDate : Option String)
       (contentID : String) (boundary : String)
       (firstChild : Option Part) (nextSibling : Option Part)

def Part.header : Part → Headers
  | .mk h _ _ _ _ _ _ _ _ _ _ => h

def Part.content : Part → List Nat
  | .mk _ c _ _ _ _ _ _ _ _ _ => c

def Part.contentType : Part → String
  | .mk _ _ ct _ _ _ _ _ _ _ _ => ct

def Part.charset : Part → String
  | .mk _ _ _ cs _ _ _ _ _ _ _ => cs

def Part.disposition : Part → String
  | .mk _ _ _ _ d _ _ _ _ _ _ => d

def Part.fileName : Part → String
  | .mk _ _ _ _ _ f _ _ _ _ _ => f

def Part.fileModDate : Part → Option String
  | .mk _ _ _ _ _ _ md _ _ _ _ => md

def Part.contentID : Part → String
  | .mk _ _ _ _ _ _ _ cid _ _ _ => cid

def Part.boundary : Part → String
  | .mk _ _ _ _ _ _ _ _ b _ _ => b

def Part.firstChild : Part → Option Part
  | .mk _ _ _ _ _ _ _ _ _ fc _ => fc

def Part.nextSibling : Part → Option Part
  | .mk _ _ _ _ _ _ _ _ _ _ ns => ns

/-- In-place mutation `p.Header = h` of the Go part. -/
def Part.setHeaderMap : Part → Headers → Part
  | .mk _ c ct cs d f md cid b fc ns, h => .mk h c ct cs d f md cid b fc ns

/-- In-place mutation `p.Charset = cs`. -/
def Part.setCharset : Part → String → Part
  | .mk h c ct _ d f md cid b fc ns, cs => .mk h c ct cs d f md cid b fc ns

/-- In-place mutation `p.Boundary = b`. -/
def Part.setBoundary : Part → String → Part
  | .mk h c ct cs d f md cid _ fc ns, b => .mk h c ct cs d f md cid b fc ns

section PartSimp

variable (h : Headers) (c : List Nat) (ct cs d f : String)
  (md : Option String) (cid b : String) (fc ns : Option Part)

@[simp] theorem Part.header_mk :
    (Part.mk h c ct cs d f md cid b fc ns).header = h := rfl

@[simp] theorem Part.content_mk :
    (Part.mk h c ct cs d f md cid b fc ns).content = c := rfl

@[simp] theorem Part.contentType_mk :
    (Part.mk h c ct cs d f md cid b fc ns).contentType = ct := rfl

@[simp] theorem Part.charset_mk :
    (Part.mk h c ct cs d f md cid b fc ns).charset = cs := rfl

@[simp] theorem Part.disposition_mk :
    (Part.mk h c ct cs d f md cid b fc ns).disposition = d := rfl

@[simp] theorem Part.fileName_mk :
    (Part.mk h c ct cs d f md cid b fc ns).fileName = f := rfl

@[simp] theorem Part.fileModDate_mk :
    (Part.mk h c ct cs d f md cid b fc ns).fileModDate = md := rfl

@[simp] theorem Part.contentID_mk :
    (Part.mk h c ct cs d f md cid b fc ns).contentID = cid := rfl

@[simp] theorem Part.boundary_mk :
    (Part.mk h c ct cs d f md cid b fc ns).boundary = b := rfl

@[simp] theorem Part.firstChild_mk :
    (Part.mk h c ct cs d f md cid b fc ns).firstChild = fc := rfl

@[simp] theorem Part.nextSibling_mk :
    (Part.mk h c ct cs d f md cid b fc ns).nextSibling = ns := rfl

@[simp] theorem Part.setHeaderMap_mk (h' : Headers) :
    (Part.mk h c ct cs d f md cid b fc ns).setHeaderMap h' =
      Part.mk h' c ct cs d f md cid b fc ns := rfl

@[simp] theorem Part.setCharset_mk (cs' : String) :
    (Part.mk h c ct cs d f md cid b fc ns).setCharset cs' =
      Part.mk h c ct cs' d f md cid b fc ns := rfl

@[simp] theorem Part.setBoundary_mk (b' : String) :
    (Part.mk h c ct cs d f md cid b fc ns).setBoundary b' =
      Part.mk h c ct cs d f md cid b' fc ns := rfl

end PartSimp

/-- Modelled from the spec: `Part.TextContent` (defined in `part.go`,
    which is not under `src/`) — the default content-type eligibility
    predicate.  Per §3/§4.6 a part is eligible for text-style encoding
    unless its content-type is binary/non-text; an unset content-type and
    the `text/` and `multipart/` families are eligible (an unset
    content-type must be eligible for the spec's content-only encoding
    property to hold). -/
def Part.TextContent (p : Part) : Bool :=
  p.contentType = "" || p.contentType.startsWith "text/" ||
    p.contentType.startsWith "multipart/"

/-- Modelled from the spec: header-name constant from `const.go` (not
    under `src/`) for the transfer-encoding header of §4.6 step 1. -/
def hnContentEncoding : String := "Content-Transfer-Encoding"

/-- Modelled from the spec: header-name constant from `const.go` (not
    under `src/`) for the Content-Type header of §4.6 step 3. -/
def hnContentType : String := "Content-Type"

/-- Modelled from the spec: header-name constant from `const.go` (not
    under `src/`) for the Content-Disposition header of §4.6 step 4. -/
def hnContentDisposition : String := "Content-Disposition"

/-- Modelled from the spec: header-name constant from `const.go` (not
    under `src/`) for the Content-ID header of §4.6 step 5. -/
def hnContentID : String := "Content-Id"

/-- Modelled from the spec: parameter-name constant `charset` from
    `const.go` (not under `src/`). -/
def hpCharset : String := "charset"

/-- Modelled from the spec: parameter-name constant `name` from
    `const.go` (not under `src/`). -/
def hpName : String := "name"

/-- Modelled from the spec: parameter-name constant `boundary` from
    `const.go` (not under `src/`). -/
def hpBoundary : String := "boundary"

/-- Modelled from the spec: parameter-name constant `filename` from
    `const.go` (not under `src/`). -/
def hpFilename : String := "filename"

/-- Modelled from the spec: parameter-name constant `modification-date`
    from `const.go` (not under `src/`). -/
def hpModDate : String := "modification-date"

/-- Modelled from the spec: the `utf8` charset-name constant from
    `const.go` (not under `src/`), the default charset of §4.6 step 1. -/
def utf8 : String := "utf-8"

/-- Modelled from the spec: the `cteBase64` header-value constant from
    `const.go` (not under `src/`). -/
def cteBase64 : String := "base64"

/-- Modelled from the spec: the `cteQuotedPrintable` header-value
    constant from `const.go` (not under `src/`). -/
def cteQuotedPrintable : String := "quoted-printable"

/-- The external collaborators the encoder calls (Go standard library
    and repository helpers outside the specified core, §1 OUT OF SCOPE):
    kept abstract, the embedding is parameterised by them. -/
structure Externals where
  /-- `mime.FormatMediaType(t, param)`; returns `""` on failure. -/
  formatMediaType : String → List (String × String) → String
  /-- `stringutil.ToASCII` (charset transliteration helper). -/
  toASCII : String → String
  /-- `coding.ToIDHeader` (angle-bracket content-id encoding). -/
  toIDHeader : String → String
  /-- `stringutil.UUID()` (random boundary token source). -/
  uuid : Unit → String
  /-- the `mime/quotedprintable` writer transform, §4.2. -/
  qpEncode : List Nat → List Nat
  /-- `mime.BEncoding.Encode(charset, v)` (RFC 2047 "B" word). -/
  bEncode : String → String → String
  /-- `mime.QEncoding.Encode(charset, v)` (RFC 2047 "Q" word). -/
  qEncode : String → String → String
  /-- `(&mail.Address{Address: a}).String()` (bare address-spec form). -/
  addrString : String → String

/-- A `HeaderEncoder`: encodes one header value given a start column,
    returning the new column and the encoded text. -/
structure HeaderEncoder where
  encode : Nat → String → Except String (Nat × String)

/-- The `Encoder` strategy record.  In the source
    `HeaderEncoderFactory` receives the `*Encoder` itself; because a Lean
    structure cannot mention its own type in a field, the factory here
    receives the transfer-encoding determiner, the only encoder field the
    repository's factory (`newFlexibleHeaderEncoder`) reads. -/
structure Encoder where
  transferEncodingDeterminer : List Nat → Bool → TransferEncoding
  contentTypeDeterminer : Part → Bool
  boundaryGenerator : Unit → String
  headerEncoderFactory :
    (List Nat → Bool → TransferEncoding) → Part → Except String HeaderEncoder

/-- `EncoderOption`: mutates and returns the encoder under construction. -/
def EncoderOption := Encoder → Encoder

/-- `WithTransferEncodingDeterminer`. -/
def WithTransferEncodingDeterminer
    (det : List Nat → Bool → TransferEncoding) : EncoderOption :=
  fun e => { e with transferEncodingDeterminer := det }

/-- `WithContentTypeDeterminer`. -/
def WithContentTypeDeterminer (det : Part → Bool) : EncoderOption :=
  fun e => { e with contentTypeDeterminer := det }

/-- `WithHeaderEncoderFactory`. -/
def WithHeaderEncoderFactory
    (f : (List Nat → Bool → TransferEncoding) → Part →
      Except String HeaderEncoder) : EncoderOption :=
  fun e => { e with headerEncoderFactory := f }

/-- `flexibleHeaderEncoder.Encode`: re-runs the determiner on the value
    with `quoteLineBreaks = true`, RFC 2047-encodes with the part's
    charset (default `utf-8`) on a Base64 or Quoted verdict, and returns
    `startColumn + len(v)` for the produced text. -/
def flexibleHeaderEncoder (ext : Externals)
    (det : List Nat → Bool → TransferEncoding) (p : Part) : HeaderEncoder where
  encode startColumn v :=
    let cs := if p.charset = "" then utf8 else p.charset
    let v' :=
      match det (strBytes v) true with
      | .teBase64 => ext.bEncode cs v
      | .teQuoted => ext.qEncode cs v
      | .te7Bit => v
    .ok (startColumn + v'.length, v')

/-- `newFlexibleHeaderEncoder`: the default factory; never fails. -/
def newFlexibleHeaderEncoder (ext : Externals)
    (det : List Nat → Bool → TransferEncoding) (p : Part) :
    Except String HeaderEncoder :=
  .ok (flexibleHeaderEncoder ext det p)

/-- `NewEncoder(options...)`: builds the encoder with the default
    strategies.  NOTE (faithful to the source): the `options` parameter is
    never applied — the function body returns the default record without
    iterating `options`. -/
def NewEncoder (ext : Externals) (options : List EncoderOption) : Encoder :=
  { transferEncodingDeterminer := selectTransferEncoding
    contentTypeDeterminer := fun p => p.TextContent
    boundaryGenerator := fun _ => "enmime-" ++ ext.uuid ()
    headerEncoderFactory := newFlexibleHeaderEncoder ext }

/-- `var DefaultEncoder = NewEncoder()`. -/
def DefaultEncoder (ext : Externals) : Encoder := NewEncoder ext []

/-- The standard (not URL-safe) base64 alphabet of
    `encoding/base64.StdEncoding`, as byte values:
    `A`–`Z`, `a`–`z`, `0`–`9`, `+`, `/`. -/
def b64Alphabet : List Nat :=
  (List.range 26).map (· + 65) ++ (List.range 26).map (· + 97) ++
    (List.range 10).map (· + 48) ++ [43, 47]

/-- Byte for sextet `i` (out-of-range indexes never arise). -/
def b64CharN (i : Nat) : Nat := b64Alphabet.getD i 65

/-- Sextet for an alphabet byte, `none` for a byte outside the alphabet. -/
def b64IndexN (c : Nat) : Option Nat := b64Alphabet.findIdx? (· == c)

/-- `base64.StdEncoding.Encode`: three bytes become four alphabet bytes;
    a final one- or two-byte remainder is padded with `=` (byte 61). -/
def b64EncodeN : List Nat → List Nat
  | [] => []
  | [a] => [b64CharN (a / 4), b64CharN (a % 4 * 16), 61, 61]
  | [a, b] => [b64CharN (a / 4), b64CharN (a % 4 * 16 + b / 16),
               b64CharN (b % 16 * 4), 61]
  | a :: b :: c :: rest =>
      b64CharN (a / 4) :: b64CharN (a % 4 * 16 + b / 16) ::
        b64CharN (b % 16 * 4 + c / 64) :: b64CharN (c % 64) :: b64EncodeN rest

/-- Standard base64 decoding of a padded encoding (the mathematical
    inverse used to state the round-trip property): four bytes at a time,
    `=` padding only in the final quad. -/
def b64DecodeN : List Nat → Option (List Nat)
  | [] => some []
  | w :: x :: y :: z :: rest =>
    match b64IndexN w, b64IndexN x with
    | some a, some b =>
      if y = 61 then
        if z = 61 ∧ rest = [] then some [a * 4 + b / 16] else none
      else
        match b64IndexN y with
        | some c =>
          if z = 61 then
            if rest = [] then some [a * 4 + b / 16, b % 16 * 16 + c / 4]
            else none
          else
            match b64IndexN z with
            | some d =>
              (b64DecodeN rest).map
                (fun t => (a * 4 + b / 16) :: (b % 16 * 16 + c / 4) ::
                  (c % 4 * 64 + d) :: t)
            | none => none
        | none => none
    | _, _ => none
  | _ => none

/-- The base64 line-wrapping loop of `encodeContent`: write 76 bytes
    (or whatever remains) followed by CRLF until the text is exhausted.
    The source tracks a `lineLen` variable that is lowered to `len(text)`
    when fewer than 76 bytes remain; since after such an iteration the
    text is empty and the loop exits, taking `min 76 (len text)` at every
    iteration is the same computation. -/
def wrapB64 (text : List Nat) : List Nat :=
  if h : text = [] then []
  else text.take 76 ++ crnlB ++ wrapB64 (text.drop 76)
termination_by text.length
decreasing_by
  simp only [List.length_drop]
  have : 0 < text.length := List.length_pos.mpr h
  omega

/-- The list of physical lines the wrapping loop produces. -/
def chunks76 (l : List Nat) : List (List Nat) :=
  if h : l = [] then []
  else l.take 76 :: chunks76 (l.drop 76)
termination_by l.length
decreasing_by
  simp only [List.length_drop]
  have : 0 < l.length := List.length_pos.mpr h
  omega

/-- `encodeContent(p, b, cte)`: base64 encode + wrap, quoted-printable
    transform, or raw bytes. -/
def encodeContent (ext : Externals) (cte : TransferEncoding)
    (content : List Nat) : List Nat :=
  match cte with
  | .teBase64 => wrapB64 (b64EncodeN content)
  | .teQuoted => ext.qpEncode content
  | .te7Bit => content

/-- Character codes of a character list (`[]byte` of ASCII text). -/
def charBytes (l : List Char) : List Nat := l.map Char.toNat

/-- Split a character list at single spaces, keeping empty tokens
    (the tokenisation underlying the spec-modelled folding). -/
def splitTok : List Char → List (List Char)
  | [] => [[]]
  | c :: cs =>
    match splitTok cs with
    | [] => [[c]]
    | t :: ts => if c = ' ' then [] :: t :: ts else (c :: t) :: ts

/-- Modelled from the spec: the folding core of `stringutil.Wrap`
    (`internal/stringutil/wrap.go`, which is not under `src/`), per §4.4:
    keep appending the next token together with its separating space while
    the line stays within `max` columns, otherwise break, the fold being
    CRLF (inserted by the caller between consecutive lines) followed by a
    single space that opens the continuation line. -/
def wrapGo (max : Nat) (cur : List Char) :
    List (List Char) → List (List Char)
  | [] => [cur]
  | t :: ts =>
    if cur.length + 1 + t.length ≤ max then wrapGo max (cur ++ ' ' :: t) ts
    else cur :: wrapGo max (' ' :: t) ts

/-- Modelled from the spec: the physical lines of one folded header line
    `"<Name>: <value>"` produced by `stringutil.Wrap(76, k, ":_", encv,
    "\r\n")` plus the source's patch of the `_` back to a space — the `_`
    glues the name, the colon, the literal space and the first value token
    into a single unbreakable atom, so no fold can separate them
    (§4.4: the space after the colon is not a fold point). -/
def wrapHeaderLine (name value : List Char) : List (List Char) :=
  match splitTok value with
  | [] => [name ++ [':', ' ']]
  | t :: ts => wrapGo 76 (name ++ ':' :: ' ' :: t) ts

/-- The emitted text for one header value: the folded physical lines
    joined by CRLF, with a final CRLF terminating the header line. -/
def encodeHeaderValue (name value : List Char) : List Char :=
  List.intercalate ['\r', '\n'] (wrapHeaderLine name value) ++ ['\r', '\n']

def insertSorted (s : String) : List String → List String
  | [] => [s]
  | t :: ts => if s ≤ t then s :: t :: ts else t :: insertSorted s ts

/-- `sort.Strings` on the collected header keys. -/
def sortStrings : List String → List String
  | [] => []
  | s :: ss => insertSorted s (sortStrings ss)

/-- The inner loop of `encodeHeader` over the values of one key: each
    value is passed through the header encoder (the returned column is
    discarded, as in the source) and emitted as its own folded header
    line. -/
def encodeVals (he : HeaderEncoder) (k : String) :
    List String → Except String (List Nat)
  | [] => .ok []
  | v :: vs => do
    let r ← he.encode 0 v
    let rest ← encodeVals he k vs
    pure (charBytes (encodeHeaderValue k.toList r.2.toList) ++ rest)

/-- The outer loop of `encodeHeader` over the sorted key list. -/
def encodeHeaderLoop (he : HeaderEncoder) (hm : Headers) :
    List String → Except String (List Nat)
  | [] => .ok []
  | k :: ks => do
    let block ← encodeVals he k (hGet hm k)
    let rest ← encodeHeaderLoop he hm ks
    pure (block ++ rest)

/-- `encodeHeader`: instantiate the header encoder via the factory
    (which in the source receives the encoder itself; here its
    transfer-encoding determiner, the only field the default factory
    reads), then write out the headers in sorted key order. -/
def encodeHeader (e : Encoder) (p : Part) : Except String (List Nat) := do
  let he ← e.headerEncoderFactory e.transferEncodingDeterminer p
  encodeHeaderLoop he p.header (sortStrings (p.header.map (fun kv => kv.1)))

/-- `setParamValue`: ignore empty values. -/
def setParamValue (param : List (String × String)) (k v : String) :
    List (String × String) :=
  if v ≠ "" then param ++ [(k, v)] else param

/-- The parameter map built for the Content-Type header: charset,
    ASCII-transliterated filename, boundary. -/
def ctParams (ext : Externals) (p : Part) : List (String × String) :=
  setParamValue (setParamValue (setParamValue [] hpCharset p.charset)
    hpName (ext.toASCII p.fileName)) hpBoundary p.boundary

/-- The parameter map built for the Content-Disposition header:
    ASCII-transliterated filename and (when the mod date is not the zero
    time) the RFC 822 modification date. -/
def dispParams (ext : Externals) (p : Part) : List (String × String) :=
  let param := setParamValue [] hpFilename (ext.toASCII p.fileName)
  match p.fileModDate with
  | some d => setParamValue param hpModDate d
  | none => param

/-- The content-transfer-encoding block of `setupMIMEHeaders`: empty
    content is 7bit; otherwise the classification starts at Base64, runs
    the determiner (quote-line-breaks false) only when the content-type
    determiner accepts the part — in that case an unset charset defaults
    to UTF-8 — and the resulting encoding is recorded in the header for
    Base64/Quoted (7bit stays implicit per RFC 2045). -/
def setupCTE (e : Encoder) (p : Part) : TransferEncoding × Part :=
  if p.content.isEmpty then (.te7Bit, p)
  else
    let cte :=
      if e.contentTypeDeterminer p then
        e.transferEncodingDeterminer p.content false
      else .teBase64
    let p1 :=
      if e.contentTypeDeterminer p ∧ p.charset = "" then p.setCharset utf8
      else p
    let p2 :=
      if cte = .teBase64 then
        p1.setHeaderMap (hSet p1.header hnContentEncoding cteBase64)
      else if cte = .teQuoted then
        p1.setHeaderMap (hSet p1.header hnContentEncoding cteQuotedPrintable)
      else p1
    (cte, p2)

/-- The boundary block of `setupMIMEHeaders`: generate a boundary when
    the part has a child but no boundary set. -/
def setupBoundary (e : Encoder) (p : Part) : Part :=
  if p.firstChild.isSome ∧ p.boundary = "" then
    p.setBoundary (e.boundaryGenerator ())
  else p

/-- The Content-ID block of `setupMIMEHeaders`. -/
def setupContentID (ext : Externals) (p : Part) : Part :=
  if p.contentID ≠ "" then
    p.setHeaderMap (hSet p.header hnContentID (ext.toIDHeader p.contentID))
  else p

/-- The first phase of `setupMIMEHeaders`: delete any stale
    transfer-encoding header (`p.Header.Del`), then run the
    content-transfer-encoding, boundary and Content-ID blocks in the
    source's order. -/
def setupPre (ext : Externals) (e : Encoder) (p : Part) :
    TransferEncoding × Part :=
  let s := setupCTE e (p.setHeaderMap (hDel p.header hnContentEncoding))
  (s.1, setupContentID ext (setupBoundary e s.2))

/-- `setupMIMEHeaders`: the first phase plus the Content-Type and
    Content-Disposition headers; when `mime.FormatMediaType` fails
    (returns the empty string) the bare content-type or disposition
    string is used instead. -/
def setupMIMEHeaders (ext : Externals) (e : Encoder) (p : Part) :
    TransferEncoding × Part :=
  let r := setupPre ext e p
  let p1 := r.2
  let p2 :=
    if p1.contentType ≠ "" then
      let mt := ext.formatMediaType p1.contentType (ctParams ext p1)
      let mt := if mt = "" then p1.contentType else mt
      p1.setHeaderMap (hSet p1.header hnContentType mt)
    else p1
  let p3 :=
    if p2.disposition ≠ "" then
      let mt := ext.formatMediaType p2.disposition (dispParams ext p2)
      let mt := if mt = "" then p2.disposition else mt
      p2.setHeaderMap (hSet p2.header hnContentDisposition mt)
    else p2
  (r.1, p3)

section SetupLemmas

variable {α : Type} (ext : Externals) (e : Encoder) (p : Part) (g : Part → α)

theorem setupCTE_preserves
    (hH : ∀ q h, g (q.setHeaderMap h) = g q)
    (hC : ∀ q cs, g (q.setCharset cs) = g q) :
    g (setupCTE e p).2 = g p := by
  simp only [setupCTE]
  split_ifs <;> simp only [hH, hC]

theorem setupBoundary_preserves
    (hB : ∀ q b, g (q.setBoundary b) = g q) :
    g (setupBoundary e p) = g p := by
  simp only [setupBoundary]
  split_ifs <;> simp only [hB]

theorem setupContentID_preserves
    (hH : ∀ q h, g (q.setHeaderMap h) = g q) :
    g (setupContentID ext p) = g p := by
  simp only [setupContentID]
  split_ifs <;> simp only [hH]

theorem setupPre_preserves
    (hH : ∀ q h, g (q.setHeaderMap h) = g q)
    (hC : ∀ q cs, g (q.setCharset cs) = g q)
    (hB : ∀ q b, g (q.setBoundary b) = g q) :
    g (setupPre ext e p).2 = g p := by
  simp only [setupPre]
  rw [setupContentID_preserves ext _ g hH,
    setupBoundary_preserves e _ g hB,
    setupCTE_preserves e _ g hH hC, hH]

theorem setupMIMEHeaders_preserves
    (hH : ∀ q h, g (q.setHeaderMap h) = g q)
    (hpre : g (setupPre ext e p).2 = g p) :
    g (setupMIMEHeaders ext e p).2 = g p := by
  simp only [setupMIMEHeaders]
  split_ifs <;> (try simp only [hH]) <;> exact hpre

theorem setupPre_content : (setupPre ext e p).2.content = p.content :=
  setupPre_preserves ext e p Part.content
    (fun q _ => by cases q; rfl) (fun q _ => by cases q; rfl)
    (fun q _ => by cases q; rfl)

theorem setupPre_fileName : (setupPre ext e p).2.fileName = p.fileName :=
  setupPre_preserves ext e p Part.fileName
    (fun q _ => by cases q; rfl) (fun q _ => by cases q; rfl)
    (fun q _ => by cases q; rfl)

theorem setupPre_fileModDate :
    (setupPre ext e p).2.fileModDate = p.fileModDate :=
  setupPre_preserves ext e p Part.fileModDate
    (fun q _ => by cases q; rfl) (fun q _ => by cases q; rfl)
    (fun q _ => by cases q; rfl)

theorem setupPre_firstChild :
    (setupPre ext e p).2.firstChild = p.firstChild :=
  setupPre_preserves ext e p Part.firstChild
    (fun q _ => by cases q; rfl) (fun q _ => by cases q; rfl)
    (fun q _ => by cases q; rfl)

theorem setupPre_boundary (hb : p.boundary ≠ "") :
    (setupPre ext e p).2.boundary = p.boundary := by
  have hH : ∀ (q : Part) h, (q.setHeaderMap h).boundary = q.boundary :=
    fun q _ => by cases q; rfl
  have hcte : (setupCTE e
      (p.setHeaderMap (hDel p.header hnContentEncoding))).2.boundary =
      p.boundary := by
    rw [setupCTE_preserves e _ Part.boundary hH
      (fun q _ => by cases q; rfl), hH]
  simp only [setupPre]
  rw [setupContentID_preserves ext _ Part.boundary hH]
  simp only [setupBoundary]
  split_ifs with h
  · rw [hcte] at h
    exact absurd h.2 hb
  · exact hcte

theorem setupMIMEHeaders_content :
    (setupMIMEHeaders ext e p).2.content = p.content :=
  setupMIMEHeaders_preserves ext e p Part.content
    (fun q _ => by cases q; rfl) (setupPre_content ext e p)

theorem setupMIMEHeaders_fileName :
    (setupMIMEHeaders ext e p).2.fileName = p.fileName :=
  setupMIMEHeaders_preserves ext e p Part.fileName
    (fun q _ => by cases q; rfl) (setupPre_fileName ext e p)

theorem setupMIMEHeaders_fileModDate :
    (setupMIMEHeaders ext e p).2.fileModDate = p.fileModDate :=
  setupMIMEHeaders_preserves ext e p Part.fileModDate
    (fun q _ => by cases q; rfl) (setupPre_fileModDate ext e p)

theorem setupMIMEHeaders_boundary (hb : p.boundary ≠ "") :
    (setupMIMEHeaders ext e p).2.boundary = p.boundary :=
  setupMIMEHeaders_preserves ext e p Part.boundary
    (fun q _ => by cases q; rfl) (setupPre_boundary ext e p hb)

theorem setupMIMEHeaders_fst :
    (setupMIMEHeaders ext e p).1 = (setupPre ext e p).1 := by
  simp only [setupMIMEHeaders]

end SetupLemmas

mutual
/-- `Encoder.Encode`: set up the MIME headers, write the header block,
    a blank CRLF line plus the encoded content when content is present,
    then the boundary-delimited children (each preceded by
    `CRLF "--" boundary CRLF`, with `CRLF "--" boundary "--" CRLF` after
    the last).  The children links are read from the argument part, which
    `setupMIMEHeaders` never modifies.  Each child is encoded with the
    package-level default encoder — the source's `c.Encode(b)`, which
    calls `DefaultEncoder.Encode`. -/
def encodePart (ext : Externals) (e : Encoder) :
    Part → Except String (List Nat)
  | p@(.mk _ _ _ _ _ _ _ _ _ fc _) => do
    let r := setupMIMEHeaders ext e p
    let hdr ← encodeHeader e r.2
    let body :=
      if r.2.content.isEmpty then []
      else crnlB ++ encodeContent ext r.1 r.2.content
    match fc with
    | none => pure (hdr ++ body)
    | some c => do
      let marker := strBytes ("\r\n--" ++ r.2.boundary)
      let blocks ← childEncodes ext c
      pure (hdr ++ body ++
        (blocks.map (fun bb => marker ++ crnlB ++ bb)).flatten ++
        marker ++ strBytes "--" ++ crnlB)
termination_by p => (sizeOf p, 0)
decreasing_by
  all_goals simp_wf
  all_goals first
    | (apply Prod.Lex.right; omega)
    | (apply Prod.Lex.left; subst_vars; simp; omega)
    | (apply Prod.Lex.left; subst_vars; omega)
    | (apply Prod.Lex.left; omega)
    | (subst_vars; simp; omega)
    | omega

/-- The children loop of `Encoder.Encode`: the byte blocks of the
    sibling chain in order, each encoded via the default encoder
    (`c.Encode(b)` in the source). -/
def childEncodes (ext : Externals) : Part → Except String (List (List Nat))
  | c@(.mk _ _ _ _ _ _ _ _ _ _ ns) => do
    let bb ← encodePart ext (DefaultEncoder ext) c
    match ns with
    | none => pure [bb]
    | some c2 => do
      let rest ← childEncodes ext c2
      pure (bb :: rest)
termination_by c => (sizeOf c, 1)
decreasing_by
  all_goals simp_wf
  all_goals first
    | (apply Prod.Lex.right; omega)
    | (apply Prod.Lex.left; subst_vars; simp; omega)
    | (apply Prod.Lex.left; subst_vars; omega)
    | (apply Prod.Lex.left; omega)
    | (subst_vars; simp; omega)
    | omega
end

/-- `func (p *Part) Encode(writer)`: delegates to the default encoder. -/
def partEncode (ext : Externals) (p : Part) : Except String (List Nat) :=
  encodePart ext (DefaultEncoder ext) p

/-- `net/mail.Address`: display name and address-spec. -/
structure MailAddress where
  name : String
  address : String

/-- The loop of `EncodeAwareJoinAddress`.  NOTE (faithful to the
    source): inside the display-name block the Go code binds a fresh
    `col` with `:=` (`col, encoded, err := headerEncoder(col, a.Name)`),
    shadowing the outer running column for the rest of that block; the
    fold check directly after the name therefore uses the encoder's
    returned column, but when the block ends the outer column resumes
    from its value before the name was written, so the subsequent
    `col += len(addrPart)` and separator checks run on the stale value. -/
def eajGo (ext : Externals)
    (headerEncoder : Nat → String → Except String (Nat × String)) :
    List MailAddress → Bool → Nat → String → Except String String
  | [], _, _, buf => .ok buf
  | a :: rest, first, col, buf => do
    let s :=
      if first then (buf, col)
      else
        let buf := buf ++ ","
        let col := col + 1
        let s := if col > 76 then (buf ++ "\r\n", 0) else (buf, col)
        (s.1 ++ " ", s.2 + 1)
    let buf := s.1
    let col := s.2
    let buf ←
      if a.name ≠ "" then do
        let r ← headerEncoder col a.name
        let buf := buf ++ r.2
        let buf := if r.1 > 76 then buf ++ "\r\n" else buf
        pure (buf ++ " ")
      else pure buf
    let addrPart := ext.addrString a.address
    eajGo ext headerEncoder rest false (col + addrPart.length) (buf ++ addrPart)

/-- `EncodeAwareJoinAddress(headerEncoder, startColumn, addrs)`. -/
def encodeAwareJoinAddress (ext : Externals)
    (headerEncoder : Nat → String → Except String (Nat × String))
    (startColumn : Nat) (addrs : List MailAddress) : Except String String :=
  if addrs.isEmpty then .ok ""
  else eajGo ext headerEncoder addrs true startColumn ""

/-- A concrete instantiation of the external collaborators, used for
    witnesses and counterexamples. -/
def extM : Externals :=
  { formatMediaType := fun t _ => t
    toASCII := fun s => s
    toIDHeader := fun s => "<" ++ s ++ ">"
    uuid := fun _ => "uuid"
    qpEncode := fun l => l
    bEncode := fun _ v => v
    qEncode := fun _ v => v
    addrString := fun s => "<" ++ s ++ ">" }

/-- A transfer-encoding determiner that always answers Base64,
    observably different from `SelectTransferEncoding`. -/
def constBase64Det : List Nat → Bool → TransferEncoding :=
  fun _ _ => .teBase64

/-- C1: the claim says `NewEncoder(options...)` applies its options, so
    that an encoder built with `WithTransferEncodingDeterminer f` uses
    `f` instead of `SelectTransferEncoding`.  The code never applies the
    `options` parameter: this theorem shows the result of `NewEncoder` is
    the all-defaults encoder for every option list, and that after
    passing `WithTransferEncodingDeterminer constBase64Det` the encoder's
    determiner still answers like `SelectTransferEncoding` (7bit on empty
    content), not like the supplied determiner. -/
theorem c1_new_encoder_ignores_options :
    (∀ (ext : Externals) (opts : List EncoderOption),
        NewEncoder ext opts = NewEncoder ext []) ∧
    (NewEncoder extM
        [WithTransferEncodingDeterminer constBase64Det]).transferEncodingDeterminer
        [] false = .te7Bit ∧
    constBase64Det [] false = .teBase64 := by
  exact ⟨fun ext opts => rfl, rfl, rfl⟩

/-- Seventy `a` characters: a long ASCII display name. -/
def name70 : String :=
  "aaaaaaaaaaaaaaaaaaaaaaaaaaaaaaaaaaaaaaaaaaaaaaaaaaaaaaaaaaaaaaaaaaaaaa"

/-- A header encoder that leaves the value unchanged and accounts for
    its length, like the default one does on plain ASCII. -/
def heIdentity : Nat → String → Except String (Nat × String) :=
  fun col v => .ok (col + v.length, v)

def hasCRLFAux : List Char → Bool
  | [] => false
  | '\r' :: '\n' :: _ => true
  | _ :: rest => hasCRLFAux rest

/-- Whether a string contains the CRLF fold sequence. -/
def hasCRLF (s : String) : Bool := hasCRLFAux s.toList

/-- C4: the claim says the running column used for each fold decision in
    `EncodeAwareJoinAddress` accounts for every character emitted on the
    current line, including the full length of an encoded display name.
    The code forgets the display name's length (the inner `col` shadows
    the outer one), so with a 70-character name followed by a second
    address the separator's fold check sees column 6 instead of 77 and no
    fold is emitted: the result is one 83-character physical line with no
    CRLF, where the claim requires a fold before the second address. -/
theorem c4_running_column_forgets_name :
    encodeAwareJoinAddress extM heIdentity 0
        [⟨name70, "a@x"⟩, ⟨"", "b@y"⟩] =
      .ok (name70 ++ " <a@x>, <b@y>") ∧
    hasCRLF (name70 ++ " <a@x>, <b@y>") = false ∧
    (name70 ++ " <a@x>, <b@y>").length = 83 := by
  refine ⟨?_, by decide, by decide⟩
  rfl

theorem bind_ok_inv {ε α β : Type} {x : Except ε α} {f : α → Except ε β}
    {b : β} (h : (x >>= f) = .ok b) : ∃ a, x = .ok a ∧ f a = .ok b := by
  cases x with
  | error err => exact Except.noConfusion h
  | ok a => exact ⟨a, rfl, h⟩

theorem strBytes_append (s t : String) :
    strBytes (s ++ t) = strBytes s ++ strBytes t := by
  simp [strBytes]

theorem crnlB_def : crnlB = strBytes "\r\n" := rfl

/-- C8: for every part with a (non-empty) boundary string `b` and
    exactly two children, a successful `Encode` emits, in order: the
    parent's header block, then (when the parent has content) a blank
    CRLF line and the encoded parent content, then `"\r\n--b\r\n"`, the
    first child's full encoding, `"\r\n--b\r\n"`, the second child's full
    encoding, and the terminating delimiter `"\r\n--b--\r\n"`. -/
theorem c8_multipart_layout
    (ext : Externals) (e : Encoder) (p c1 c2 : Part) (out : List Nat)
    (b : String)
    (hb : p.boundary = b) (hbne : b ≠ "")
    (h1 : p.firstChild = some c1) (h2 : c1.nextSibling = some c2)
    (h3 : c2.nextSibling = none)
    (henc : encodePart ext e p = .ok out) :
    ∃ hdr k1 k2,
      encodeHeader e (setupMIMEHeaders ext e p).2 = .ok hdr ∧
      partEncode ext c1 = .ok k1 ∧
      partEncode ext c2 = .ok k2 ∧
      out = hdr ++
        (if p.content.isEmpty then []
         else crnlB ++
           encodeContent ext (setupMIMEHeaders ext e p).1 p.content) ++
        strBytes ("\r\n--" ++ b ++ "\r\n") ++ k1 ++
        strBytes ("\r\n--" ++ b ++ "\r\n") ++ k2 ++
        strBytes ("\r\n--" ++ b ++ "--" ++ "\r\n") := by
  have hcont := setupMIMEHeaders_content ext e p
  have hbnd := setupMIMEHeaders_boundary ext e p (hb ▸ hbne)
  obtain ⟨hm, c, ct, cs, d, f, md, cid, b0, fc, ns⟩ := p
  simp only [Part.firstChild_mk] at h1
  simp only [Part.boundary_mk] at hb
  subst h1
  subst hb
  simp only [encodePart] at henc
  obtain ⟨hdr, hhdr, henc⟩ := bind_ok_inv henc
  obtain ⟨blocks, hblocks, henc⟩ := bind_ok_inv henc
  -- unfold the two steps of the children loop
  obtain ⟨hm1, cc1, ct1, cs1, d1, f1, md1, cid1, bb1, fc1, ns1⟩ := c1
  simp only [Part.nextSibling_mk] at h2
  subst h2
  simp only [childEncodes] at hblocks
  obtain ⟨k1, hk1, hblocks⟩ := bind_ok_inv hblocks
  obtain ⟨rest, hrest, hblocks⟩ := bind_ok_inv hblocks
  obtain ⟨hm2, cc2, ct2, cs2, d2, f2, md2, cid2, bb2, fc2, ns2⟩ := c2
  simp only [Part.nextSibling_mk] at h3
  subst h3
  simp only [childEncodes] at hrest
  obtain ⟨k2, hk2, hrest⟩ := bind_ok_inv hrest
  simp only [pure, Except.pure, Except.ok.injEq] at hrest
  subst hrest
  simp only [pure, Except.pure, Except.ok.injEq] at hblocks
  subst hblocks
  simp only [pure, Except.pure, Except.ok.injEq] at henc
  refine ⟨hdr, k1, k2, hhdr, hk1, hk2, ?_⟩
  rw [← henc]
  simp only [Part.content_mk] at hcont
  simp only [Part.boundary_mk] at hbnd
  simp only [hcont, hbnd, Part.content_mk, List.map_cons, List.map_nil,
    List.flatten, crnlB_def, strBytes_append, List.append_assoc,
    List.append_nil, List.nil_append]

/-- The root part's body block: a blank CRLF line plus the encoded
    content when the (set-up) part has content, nothing otherwise. -/
def rootBodyBlock (ext : Externals) (e : Encoder) (p : Part) : List Nat :=
  if (setupMIMEHeaders ext e p).2.content.isEmpty then []
  else
    crnlB ++ encodeContent ext (setupMIMEHeaders ext e p).1
      (setupMIMEHeaders ext e p).2.content

/-- The boundary marker bytes `"\r\n--" ++ boundary` written before each
    child and (followed by `"--"`) after the last. -/
def boundaryMarker (ext : Externals) (e : Encoder) (p : Part) : List Nat :=
  strBytes ("\r\n--" ++ (setupMIMEHeaders ext e p).2.boundary)

/-- C2: every child is encoded via the default encoder (`c.Encode(b)`
    delegates to the package-level `DefaultEncoder`); consequently, for
    any two encoders `e1`, `e2` under which encoding the same parent
    succeeds, the byte blocks emitted for the child subtrees are one and
    the same list `blocks` — the invoking encoder's strategies affect
    only the root's header block, body block and boundary markers. -/
theorem c2_children_use_default_encoder
    (ext : Externals) (e1 e2 : Encoder) (p c : Part) (out1 out2 : List Nat)
    (hc : p.firstChild = some c)
    (h1 : encodePart ext e1 p = .ok out1)
    (h2 : encodePart ext e2 p = .ok out2) :
    ∃ hdr1 hdr2 blocks,
      encodeHeader e1 (setupMIMEHeaders ext e1 p).2 = .ok hdr1 ∧
      encodeHeader e2 (setupMIMEHeaders ext e2 p).2 = .ok hdr2 ∧
      childEncodes ext c = .ok blocks ∧
      out1 = hdr1 ++ rootBodyBlock ext e1 p ++
        (blocks.map (fun bb => boundaryMarker ext e1 p ++ crnlB ++ bb)).flatten ++
        boundaryMarker ext e1 p ++ strBytes "--" ++ crnlB ∧
      out2 = hdr2 ++ rootBodyBlock ext e2 p ++
        (blocks.map (fun bb => boundaryMarker ext e2 p ++ crnlB ++ bb)).flatten ++
        boundaryMarker ext e2 p ++ strBytes "--" ++ crnlB := by
  obtain ⟨hm, cnt, ct, cs, d, f, md, cid, b0, fc, ns⟩ := p
  simp only [Part.firstChild_mk] at hc
  subst hc
  simp only [encodePart] at h1 h2
  obtain ⟨hdr1, hhdr1, h1⟩ := bind_ok_inv h1
  obtain ⟨blocks1, hblocks1, h1⟩ := bind_ok_inv h1
  obtain ⟨hdr2, hhdr2, h2⟩ := bind_ok_inv h2
  obtain ⟨blocks2, hblocks2, h2⟩ := bind_ok_inv h2
  have hbeq : blocks2 = blocks1 := by
    rw [hblocks1] at hblocks2
    exact (Except.ok.inj hblocks2).symm
  subst hbeq
  simp only [pure, Except.pure, Except.ok.injEq] at h1 h2
  refine ⟨hdr1, hdr2, blocks2, hhdr1, hhdr2, hblocks1, ?_, ?_⟩
  · rw [← h1]
    simp only [rootBodyBlock, boundaryMarker]
  · rw [← h2]
    simp only [rootBodyBlock, boundaryMarker]

theorem Part.header_setHeaderMap (q : Part) (h : Headers) :
    (q.setHeaderMap h).header = h := by cases q; rfl

theorem hGet_append (h1 h2 : Headers) (k : String) :
    hGet (h1 ++ h2) k =
      (if (h1.filter (fun e => e.1 == k)).isEmpty then hGet h2 k
       else hGet h1 k) := by
  induction h1 with
  | nil => simp [hGet]
  | cons x xs ih =>
    by_cases hx : x.1 = k
    · have hb : (x.1 == k) = true := by simp [hx]
      simp [hGet, hx, List.filter_cons, hb]
    · have hb : (x.1 == k) = false := by simp [hx]
      show hGet (x :: (xs ++ h2)) k = _
      rw [List.filter_cons, hb]
      simp [hGet, hx, ih]

theorem hDel_filter_none (h : Headers) (k : String) :
    ((hDel h k).filter (fun e => e.1 == k)).isEmpty = true := by
  induction h with
  | nil => rfl
  | cons x xs ih =>
    by_cases hx : x.1 = k
    · simpa [hDel, List.filter_cons, hx] using ih
    · simpa [hDel, List.filter_cons, hx] using ih

theorem hGet_hSet_self (h : Headers) (k v : String) :
    hGet (hSet h k v) k = [v] := by
  simp only [hSet]
  rw [hGet_append, if_pos (hDel_filter_none h k)]
  simp [hGet]

theorem hGet_hDel_ne (h : Headers) (k k' : String) (hne : k' ≠ k) :
    hGet (hDel h k') k = hGet h k := by
  induction h with
  | nil => rfl
  | cons x xs ih =>
    by_cases hx' : x.1 = k'
    · have hx : x.1 ≠ k := by rw [hx']; exact hne
      have hb : (x.1 != k') = false := by simp [hx']
      simp only [hDel, List.filter_cons, hb, Bool.false_eq_true, if_false]
      simp only [hDel] at ih
      rw [ih, hGet]
      simp [hx]
    · have hb : (x.1 != k') = true := by simp [hx']
      simp only [hDel, List.filter_cons, hb, if_true]
      simp only [hDel] at ih
      by_cases hx : x.1 = k
      · simp [hGet, hx]
      · simp [hGet, hx, ih]

theorem hGet_eq_nil_of_filter_empty (h : Headers) (k : String)
    (hf : (h.filter (fun e => e.1 == k)).isEmpty = true) : hGet h k = [] := by
  induction h with
  | nil => rfl
  | cons x xs ih =>
    by_cases hx : x.1 = k
    · simp [List.filter_cons, hx] at hf
    · simp only [List.filter_cons] at hf
      rw [if_neg (by simp [hx])] at hf
      simp [hGet, hx, ih hf]

theorem hGet_hSet_ne (h : Headers) (k k' v : String) (hne : k' ≠ k) :
    hGet (hSet h k' v) k = hGet h k := by
  simp only [hSet]
  rw [hGet_append]
  split_ifs with hf
  · have h1 : hGet (hDel h k') k = [] :=
      hGet_eq_nil_of_filter_empty _ _ hf
    rw [← hGet_hDel_ne h k k' hne, h1]
    simp [hGet, hne]
  · exact hGet_hDel_ne h k k' hne

theorem bind_ok {ε α β : Type} {x : Except ε α} {a : α} (hx : x = .ok a)
    (f : α → Except ε β) : (x >>= f) = f a := by
  rw [hx]; rfl

theorem bind_ok_exists {ε α β : Type} {x : Except ε α} {a : α}
    (hx : x = .ok a) {f : α → Except ε β} (hf : ∃ b, f a = .ok b) :
    ∃ b, (x >>= f) = .ok b := by
  rw [hx]; exact hf

theorem encodeVals_ok (he : HeaderEncoder)
    (hok : ∀ c v, ∃ r, he.encode c v = .ok r) (k : String) :
    ∀ (vs : List String), ∃ out, encodeVals he k vs = .ok out := by
  intro vs
  induction vs with
  | nil => exact ⟨[], rfl⟩
  | cons v vs ih =>
    obtain ⟨r, hr⟩ := hok 0 v
    simp only [encodeVals]
    exact bind_ok_exists hr (bind_ok_exists ih.choose_spec ⟨_, rfl⟩)

theorem encodeHeaderLoop_ok (he : HeaderEncoder)
    (hok : ∀ c v, ∃ r, he.encode c v = .ok r) (hm : Headers) :
    ∀ (ks : List String), ∃ out, encodeHeaderLoop he hm ks = .ok out := by
  intro ks
  induction ks with
  | nil => exact ⟨[], rfl⟩
  | cons k ks ih =>
    obtain ⟨block, hblock⟩ := encodeVals_ok he hok k (hGet hm k)
    simp only [encodeHeaderLoop]
    exact bind_ok_exists hblock (bind_ok_exists ih.choose_spec ⟨_, rfl⟩)

/-- The default encoder's header-encoder factory and header encoder
    never fail, so `encodeHeader` with the default encoder always
    succeeds. -/
theorem encodeHeader_default_ok (ext : Externals) (p : Part) :
    ∃ out, encodeHeader (DefaultEncoder ext) p = .ok out := by
  have hfl : ∀ c v, ∃ r,
      (flexibleHeaderEncoder ext selectTransferEncoding p).encode c v =
        .ok r := fun c v => ⟨_, rfl⟩
  obtain ⟨out, hout⟩ := encodeHeaderLoop_ok _ hfl p.header
    (sortStrings (p.header.map (fun kv => kv.1)))
  exact ⟨out, hout⟩

/-- Encoding with the default encoder always succeeds (no error path:
    the sink is pure, the default header encoder is total). -/
theorem encode_default_ok (ext : Externals) :
    ∀ (n : Nat) (p : Part), sizeOf p ≤ n →
      (∃ out, encodePart ext (DefaultEncoder ext) p = .ok out) ∧
      (∃ bl, childEncodes ext p = .ok bl) := by
  intro n
  induction n with
  | zero =>
    intro p hp
    exfalso
    cases p with
    | mk hm c ct cs d f md cid b fc ns =>
      simp at hp
  | succ n ih =>
    intro p hp
    have hA : ∃ out, encodePart ext (DefaultEncoder ext) p = .ok out := by
      obtain ⟨hm, c, ct, cs, d, f, md, cid, b0, fc, ns⟩ := p
      obtain ⟨hdr, hhdr⟩ := encodeHeader_default_ok ext
        (setupMIMEHeaders ext (DefaultEncoder ext)
          (Part.mk hm c ct cs d f md cid b0 fc ns)).2
      simp only [encodePart]
      cases fc with
      | none => exact bind_ok_exists hhdr ⟨_, rfl⟩
      | some ch =>
        have hch : sizeOf ch ≤ n := by
          simp at hp
          omega
        obtain ⟨bl, hbl⟩ := (ih ch hch).2
        exact bind_ok_exists hhdr (bind_ok_exists hbl ⟨_, rfl⟩)
    refine ⟨hA, ?_⟩
    obtain ⟨out, hout⟩ := hA
    obtain ⟨hm, c, ct, cs, d, f, md, cid, b0, fc, ns⟩ := p
    simp only [childEncodes]
    cases ns with
    | none => exact bind_ok_exists hout ⟨_, rfl⟩
    | some c2 =>
      have hc2 : sizeOf c2 ≤ n := by
        simp at hp
        omega
      obtain ⟨bl2, hbl2⟩ := (ih c2 hc2).2
      exact bind_ok_exists hout (bind_ok_exists hbl2 ⟨_, rfl⟩)

theorem encodePart_default_total (ext : Externals) (p : Part) :
    ∃ out, encodePart ext (DefaultEncoder ext) p = .ok out :=
  (encode_default_ok ext (sizeOf p) p le_rfl).1

theorem setupPre_contentType (ext : Externals) (e : Encoder) (p : Part) :
    (setupPre ext e p).2.contentType = p.contentType :=
  setupPre_preserves ext e p Part.contentType
    (fun q _ => by cases q; rfl) (fun q _ => by cases q; rfl)
    (fun q _ => by cases q; rfl)

theorem setupPre_disposition (ext : Externals) (e : Encoder) (p : Part) :
    (setupPre ext e p).2.disposition = p.disposition :=
  setupPre_preserves ext e p Part.disposition
    (fun q _ => by cases q; rfl) (fun q _ => by cases q; rfl)
    (fun q _ => by cases q; rfl)

theorem Part.disposition_setHeaderMap (q : Part) (h : Headers) :
    (q.setHeaderMap h).disposition = q.disposition := by cases q; rfl

theorem Part.fileName_setHeaderMap (q : Part) (h : Headers) :
    (q.setHeaderMap h).fileName = q.fileName := by cases q; rfl

theorem Part.fileModDate_setHeaderMap (q : Part) (h : Headers) :
    (q.setHeaderMap h).fileModDate = q.fileModDate := by cases q; rfl

theorem dispParams_congr (ext : Externals) (q q' : Part)
    (h1 : q.fileName = q'.fileName) (h2 : q.fileModDate = q'.fileModDate) :
    dispParams ext q = dispParams ext q' := by
  simp only [dispParams, h1, h2]

/-- C10: if `mime.FormatMediaType` fails (returns the empty string) on
    the Content-Type and Content-Disposition calls of
    `setupMIMEHeaders`, the headers are set to the bare content-type and
    disposition strings without parameters, and the encode as a whole
    does not fail on account of that formatting failure (with the
    default encoder the whole encode still succeeds). -/
theorem c10_format_failure_falls_back
    (ext : Externals) (e : Encoder) (p : Part)
    (hct : p.contentType ≠ "") (hcd : p.disposition ≠ "")
    (hf1 : ext.formatMediaType p.contentType
        (ctParams ext (setupPre ext e p).2) = "")
    (hf2 : ext.formatMediaType p.disposition (dispParams ext p) = "") :
    hGet (setupMIMEHeaders ext e p).2.header hnContentType =
      [p.contentType] ∧
    hGet (setupMIMEHeaders ext e p).2.header hnContentDisposition =
      [p.disposition] ∧
    ∃ out, encodePart ext (DefaultEncoder ext) p = .ok out := by
  have hqct := setupPre_contentType ext e p
  have hqcd := setupPre_disposition ext e p
  have hqfn := setupPre_fileName ext e p
  have hqmd := setupPre_fileModDate ext e p
  have hfinal : (setupMIMEHeaders ext e p).2.header =
      hSet (hSet (setupPre ext e p).2.header hnContentType p.contentType)
        hnContentDisposition p.disposition := by
    simp only [setupMIMEHeaders]
    rw [hqct, if_pos hct, hf1, if_pos rfl]
    rw [Part.disposition_setHeaderMap, hqcd, if_pos hcd]
    have hdp : dispParams ext
        ((setupPre ext e p).2.setHeaderMap
          (hSet (setupPre ext e p).2.header hnContentType p.contentType)) =
        dispParams ext p := by
      apply dispParams_congr
      · rw [Part.fileName_setHeaderMap, hqfn]
      · rw [Part.fileModDate_setHeaderMap, hqmd]
    rw [hdp, hf2, if_pos rfl]
    rw [Part.header_setHeaderMap, Part.header_setHeaderMap]
  refine ⟨?_, ?_, encodePart_default_total ext p⟩
  · rw [hfinal, hGet_hSet_ne _ _ _ _ (by decide), hGet_hSet_self]
  · rw [hfinal, hGet_hSet_self]

theorem b64_inv : ∀ i < 64, b64IndexN (b64CharN i) = some i := by decide

theorem b64CharN_default (i : Nat) (hi : 64 ≤ i) : b64CharN i = 65 := by
  unfold b64CharN
  apply List.getD_eq_default
  have hlen : b64Alphabet.length = 64 := by decide
  omega

theorem b64CharN_ne61 (i : Nat) : b64CharN i ≠ 61 := by
  by_cases h : i < 64
  · exact (by decide : ∀ j < 64, b64CharN j ≠ 61) i h
  · rw [b64CharN_default i (by omega)]
    decide

theorem b64CharN_ne_crlf (i : Nat) : b64CharN i ≠ 13 ∧ b64CharN i ≠ 10 := by
  by_cases h : i < 64
  · exact (by decide : ∀ j < 64, b64CharN j ≠ 13 ∧ b64CharN j ≠ 10) i h
  · rw [b64CharN_default i (by omega)]
    exact ⟨by decide, by decide⟩

theorem b64DecodeN_pad2 (w x a b : Nat)
    (hw : b64IndexN w = some a) (hx : b64IndexN x = some b) :
    b64DecodeN [w, x, 61, 61] = some [a * 4 + b / 16] := by
  simp [b64DecodeN, hw, hx]

theorem b64DecodeN_pad1 (w x y a b c : Nat)
    (hw : b64IndexN w = some a) (hx : b64IndexN x = some b)
    (hy : b64IndexN y = some c) (hyne : y ≠ 61) :
    b64DecodeN [w, x, y, 61] =
      some [a * 4 + b / 16, b % 16 * 16 + c / 4] := by
  simp [b64DecodeN, hw, hx, hy, hyne]

theorem b64DecodeN_quad (w x y z : Nat) (rest : List Nat) (a b c dd : Nat)
    (hw : b64IndexN w = some a) (hx : b64IndexN x = some b)
    (hy : b64IndexN y = some c) (hz : b64IndexN z = some dd)
    (hyne : y ≠ 61) (hzne : z ≠ 61) :
    b64DecodeN (w :: x :: y :: z :: rest) =
      (b64DecodeN rest).map
        (fun t => (a * 4 + b / 16) :: (b % 16 * 16 + c / 4) ::
          (c % 4 * 64 + dd) :: t) := by
  simp [b64DecodeN, hw, hx, hy, hz, hyne, hzne]

/-- Standard base64 decoding inverts the encoding on byte inputs. -/
theorem b64_roundtrip (l : List Nat) (hb : ∀ b ∈ l, b < 256) :
    b64DecodeN (b64EncodeN l) = some l := by
  have H : ∀ (n : Nat) (l : List Nat), l.length ≤ n →
      (∀ b ∈ l, b < 256) → b64DecodeN (b64EncodeN l) = some l := by
    intro n
    induction n with
    | zero =>
      intro l hl _
      have : l = [] := List.eq_nil_of_length_eq_zero (by omega)
      subst this
      rfl
    | succ n ih =>
      intro l hl hb
      rcases l with _ | ⟨a, _ | ⟨b, _ | ⟨c, rest⟩⟩⟩
      · rfl
      · have ha := hb a (by simp)
        rw [show b64EncodeN [a] =
            [b64CharN (a / 4), b64CharN (a % 4 * 16), 61, 61] from rfl]
        rw [b64DecodeN_pad2 _ _ _ _ (b64_inv _ (by omega)) (b64_inv _ (by omega))]
        simp only [Option.some.injEq, List.cons.injEq, and_true]
        omega
      · have ha := hb a (by simp)
        have hbb := hb b (by simp)
        rw [show b64EncodeN [a, b] =
            [b64CharN (a / 4), b64CharN (a % 4 * 16 + b / 16),
             b64CharN (b % 16 * 4), 61] from rfl]
        rw [b64DecodeN_pad1 _ _ _ _ _ _ (b64_inv _ (by omega))
          (b64_inv _ (by omega)) (b64_inv _ (by omega)) (b64CharN_ne61 _)]
        simp only [Option.some.injEq, List.cons.injEq, and_true]
        constructor
        · omega
        · omega
      · have ha := hb a (by simp)
        have hbb := hb b (by simp)
        have hc := hb c (by simp)
        have hrest : ∀ x ∈ rest, x < 256 := fun x hx => hb x (by simp [hx])
        have hlen : rest.length ≤ n := by
          simp at hl
          omega
        rw [show b64EncodeN (a :: b :: c :: rest) =
            b64CharN (a / 4) :: b64CharN (a % 4 * 16 + b / 16) ::
              b64CharN (b % 16 * 4 + c / 64) :: b64CharN (c % 64) ::
              b64EncodeN rest from rfl]
        rw [b64DecodeN_quad _ _ _ _ _ _ _ _ _ (b64_inv _ (by omega))
          (b64_inv _ (by omega)) (b64_inv _ (by omega)) (b64_inv _ (by omega))
          (b64CharN_ne61 _) (b64CharN_ne61 _)]
        rw [ih rest hlen hrest]
        simp only [Option.map_some', Option.some.injEq, List.cons.injEq,
          and_true]
        omega
  exact H l.length l le_rfl hb

/-- Every byte emitted by the base64 encoder is an alphabet byte or the
    padding byte `=` (61); in particular never CR or LF. -/
theorem b64EncodeN_no_crlf (l : List Nat) :
    ∀ b ∈ b64EncodeN l, b ≠ 13 ∧ b ≠ 10 := by
  have H : ∀ (n : Nat) (l : List Nat), l.length ≤ n →
      ∀ b ∈ b64EncodeN l, b ≠ 13 ∧ b ≠ 10 := by
    intro n
    induction n with
    | zero =>
      intro l hl b hbm
      have : l = [] := List.eq_nil_of_length_eq_zero (by omega)
      subst this
      simp [b64EncodeN] at hbm
    | succ n ih =>
      intro l hl b hbm
      rcases l with _ | ⟨a1, _ | ⟨a2, _ | ⟨a3, rest⟩⟩⟩
      · simp [b64EncodeN] at hbm
      · simp only [b64EncodeN, List.mem_cons, List.not_mem_nil, or_false] at hbm
        rcases hbm with h | h | h | h <;> subst h <;>
          first
            | exact b64CharN_ne_crlf _
            | exact ⟨by decide, by decide⟩
      · simp only [b64EncodeN, List.mem_cons, List.not_mem_nil, or_false] at hbm
        rcases hbm with h | h | h | h <;> subst h <;>
          first
            | exact b64CharN_ne_crlf _
            | exact ⟨by decide, by decide⟩
      · simp only [b64EncodeN, List.mem_cons] at hbm
        rcases hbm with h | h | h | h | h
        · subst h; exact b64CharN_ne_crlf _
        · subst h; exact b64CharN_ne_crlf _
        · subst h; exact b64CharN_ne_crlf _
        · subst h; exact b64CharN_ne_crlf _
        · exact ih rest (by simp at hl; omega) b h
  exact H l.length l le_rfl

theorem chunks76_nil : chunks76 [] = [] := by simp [chunks76]

theorem chunks76_cons (t : List Nat) (ht : t ≠ []) :
    chunks76 t = t.take 76 :: chunks76 (t.drop 76) := by
  conv_lhs => rw [chunks76.eq_def]
  rw [dif_neg ht]

theorem wrapB64_nil : wrapB64 [] = [] := by simp [wrapB64]

theorem wrapB64_cons (t : List Nat) (ht : t ≠ []) :
    wrapB64 t = t.take 76 ++ crnlB ++ wrapB64 (t.drop 76) := by
  conv_lhs => rw [wrapB64.eq_def]
  rw [dif_neg ht]

/-- The wrapping loop emits exactly the 76-byte chunks, each followed by
    CRLF. -/
theorem wrapB64_eq_chunks : ∀ (n : Nat) (t : List Nat), t.length ≤ n →
    wrapB64 t = ((chunks76 t).map (fun l => l ++ crnlB)).flatten := by
  intro n
  induction n with
  | zero =>
    intro t ht
    have : t = [] := List.eq_nil_of_length_eq_zero (by omega)
    subst this
    simp [wrapB64, chunks76]
  | succ n ih =>
    intro t ht
    by_cases hnil : t = []
    · subst hnil
      simp [wrapB64, chunks76]
    · rw [wrapB64_cons t hnil, chunks76_cons t hnil]
      simp only [List.map_cons, List.flatten_cons]
      rw [ih (t.drop 76) (by
        simp only [List.length_drop]
        have : 0 < t.length := List.length_pos.mpr hnil
        omega)]

theorem chunks76_flatten : ∀ (n : Nat) (t : List Nat), t.length ≤ n →
    (chunks76 t).flatten = t := by
  intro n
  induction n with
  | zero =>
    intro t ht
    have : t = [] := List.eq_nil_of_length_eq_zero (by omega)
    subst this
    simp [chunks76]
  | succ n ih =>
    intro t ht
    by_cases hnil : t = []
    · subst hnil; simp [chunks76]
    · rw [chunks76_cons t hnil]
      simp only [List.flatten_cons]
      rw [ih (t.drop 76) (by
        simp only [List.length_drop]
        have : 0 < t.length := List.length_pos.mpr hnil
        omega)]
      exact List.take_append_drop 76 t

theorem chunks76_ne_nil (t : List Nat) (ht : t ≠ []) : chunks76 t ≠ [] := by
  rw [chunks76_cons t ht]
  simp

theorem chunks76_dropLast_76 : ∀ (n : Nat) (t : List Nat), t.length ≤ n →
    ∀ x ∈ (chunks76 t).dropLast, x.length = 76 := by
  intro n
  induction n with
  | zero =>
    intro t ht x hx
    have : t = [] := List.eq_nil_of_length_eq_zero (by omega)
    subst this
    simp [chunks76] at hx
  | succ n ih =>
    intro t ht x hx
    by_cases hnil : t = []
    · subst hnil; simp [chunks76] at hx
    · rw [chunks76_cons t hnil] at hx
      by_cases hd : t.drop 76 = []
      · rw [hd, chunks76_nil] at hx
        simp at hx
      · obtain ⟨y, ys, hys⟩ := List.exists_cons_of_ne_nil (chunks76_ne_nil _ hd)
        rw [hys] at hx
        simp only [List.dropLast_cons₂, List.mem_cons] at hx
        rcases hx with hx | hx
        · subst hx
          have hlong : 76 < t.length := by
            by_contra hc
            exact hd (List.drop_eq_nil_of_le (by omega))
          simp [List.length_take]
          omega
        · have := ih (t.drop 76) (by
            simp only [List.length_drop]
            have : 0 < t.length := List.length_pos.mpr hnil
            omega) x
          rw [hys] at this
          exact this hx

theorem chunks76_mem_mem : ∀ (n : Nat) (t : List Nat), t.length ≤ n →
    ∀ x ∈ chunks76 t, ∀ b ∈ x, b ∈ t := by
  intro n
  induction n with
  | zero =>
    intro t ht x hx
    have : t = [] := List.eq_nil_of_length_eq_zero (by omega)
    subst this
    simp [chunks76] at hx
  | succ n ih =>
    intro t ht x hx b hb
    by_cases hnil : t = []
    · subst hnil; simp [chunks76] at hx
    · rw [chunks76_cons t hnil] at hx
      rcases List.mem_cons.mp hx with hx | hx
      · subst hx
        exact (List.take_sublist 76 t).subset hb
      · have := ih (t.drop 76) (by
          simp only [List.length_drop]
          have : 0 < t.length := List.length_pos.mpr hnil
          omega) x hx b hb
        exact (List.drop_sublist 76 t).subset this

theorem b64EncodeN_ne_nil (l : List Nat) (hl : l ≠ []) :
    b64EncodeN l ≠ [] := by
  rcases l with _ | ⟨a, _ | ⟨b, _ | ⟨c, rest⟩⟩⟩
  · exact absurd rfl hl
  · simp [b64EncodeN]
  · simp [b64EncodeN]
  · simp [b64EncodeN]

/-- C7: for every non-empty byte content, the base64 branch of
    `encodeContent` emits the standard-alphabet base64 text of the
    content wrapped into lines each terminated by CRLF, where every line
    except possibly the last is exactly 76 bytes long, no line contains a
    CR or LF byte of its own, and stripping the CRLFs (concatenating the
    lines) and base64-decoding reproduces the original content. -/
theorem c7_base64_wrap_roundtrip (ext : Externals) (content : List Nat)
    (hne : content ≠ []) (hb : ∀ b ∈ content, b < 256) :
    ∃ lines : List (List Nat),
      encodeContent ext .teBase64 content =
        (lines.map (fun l => l ++ crnlB)).flatten ∧
      lines ≠ [] ∧
      (∀ l ∈ lines.dropLast, l.length = 76) ∧
      (∀ l ∈ lines, ∀ b ∈ l, b ≠ 13 ∧ b ≠ 10) ∧
      lines.flatten = b64EncodeN content ∧
      b64DecodeN lines.flatten = some content := by
  refine ⟨chunks76 (b64EncodeN content), ?_, ?_, ?_, ?_, ?_, ?_⟩
  · exact wrapB64_eq_chunks (b64EncodeN content).length _ le_rfl
  · exact chunks76_ne_nil _ (b64EncodeN_ne_nil _ hne)
  · exact chunks76_dropLast_76 (b64EncodeN content).length _ le_rfl
  · intro l hl bb hbb
    exact b64EncodeN_no_crlf content bb
      (chunks76_mem_mem (b64EncodeN content).length _ le_rfl l hl bb hbb)
  · exact chunks76_flatten (b64EncodeN content).length _ le_rfl
  · rw [chunks76_flatten (b64EncodeN content).length _ le_rfl]
    exact b64_roundtrip content hb

theorem c7_witness :
    (strBytes "Hi" ≠ [] ∧ ∀ b ∈ strBytes "Hi", b < 256) ∧
    (∃ lines : List (List Nat),
      encodeContent extM .teBase64 (strBytes "Hi") =
        (lines.map (fun l => l ++ crnlB)).flatten ∧
      lines ≠ [] ∧
      (∀ l ∈ lines.dropLast, l.length = 76) ∧
      (∀ l ∈ lines, ∀ b ∈ l, b ≠ 13 ∧ b ≠ 10) ∧
      lines.flatten = b64EncodeN (strBytes "Hi") ∧
      b64DecodeN lines.flatten = some (strBytes "Hi")) :=
  ⟨⟨by decide, by decide⟩,
    c7_base64_wrap_roundtrip extM (strBytes "Hi") (by decide) (by decide)⟩

/-- Lines of the folding loop that exceed the budget can only be the
    seed line they started from: a line is within 76 columns, or it is
    the initial atom `cur`, or a continuation seed `' ' :: t`. -/
theorem wrapGo_seed :
    ∀ (ts : List (List Char)) (cur : List Char), ∀ l ∈ wrapGo 76 cur ts,
      l.length ≤ 76 ∨ l = cur ∨ ∃ t ∈ ts, l = ' ' :: t := by
  intro ts
  induction ts with
  | nil =>
    intro cur l hl
    simp only [wrapGo, List.mem_singleton] at hl
    exact Or.inr (Or.inl hl)
  | cons t ts ih =>
    intro cur l hl
    simp only [wrapGo] at hl
    split_ifs at hl with hfit
    · rcases ih (cur ++ ' ' :: t) l hl with h | h | ⟨t', ht', h⟩
      · exact Or.inl h
      · subst h
        refine Or.inl ?_
        simp only [List.length_append, List.length_cons]
        omega
      · exact Or.inr (Or.inr ⟨t', by simp [ht'], h⟩)
    · rcases List.mem_cons.mp hl with h | h
      · exact Or.inr (Or.inl h)
      · rcases ih (' ' :: t) l h with h2 | h2 | ⟨t', ht', h2⟩
        · exact Or.inl h2
        · exact Or.inr (Or.inr ⟨t, by simp, h2⟩)
        · exact Or.inr (Or.inr ⟨t', by simp [ht'], h2⟩)

/-- The first output line extends the seed line. -/
theorem wrapGo_head :
    ∀ (ts : List (List Char)) (cur : List Char),
      ∃ r, (wrapGo 76 cur ts).head? = some (cur ++ r) := by
  intro ts
  induction ts with
  | nil =>
    intro cur
    exact ⟨[], by simp [wrapGo]⟩
  | cons t ts ih =>
    intro cur
    simp only [wrapGo]
    split_ifs with hfit
    · obtain ⟨r, hr⟩ := ih (cur ++ ' ' :: t)
      exact ⟨' ' :: t ++ r, by rw [hr]; simp⟩
    · exact ⟨[], by simp⟩

/-- Every output line extends the seed or starts with the single
    continuation space. -/
theorem wrapGo_shape :
    ∀ (ts : List (List Char)) (cur : List Char), ∀ l ∈ wrapGo 76 cur ts,
      (∃ r, l = cur ++ r) ∨ (∃ r, l = ' ' :: r) := by
  intro ts
  induction ts with
  | nil =>
    intro cur l hl
    simp only [wrapGo, List.mem_singleton] at hl
    exact Or.inl ⟨[], by simp [hl]⟩
  | cons t ts ih =>
    intro cur l hl
    simp only [wrapGo] at hl
    split_ifs at hl with hfit
    · rcases ih (cur ++ ' ' :: t) l hl with ⟨r, hr⟩ | h
      · exact Or.inl ⟨' ' :: t ++ r, by simp [hr]⟩
      · exact Or.inr h
    · rcases List.mem_cons.mp hl with h | h
      · exact Or.inl ⟨[], by simp [h]⟩
      · rcases ih (' ' :: t) l h with ⟨r, hr⟩ | h2
        · exact Or.inr ⟨t ++ r, by simp [hr]⟩
        · exact Or.inr h2

/-- Every line after the first starts with the single continuation
    space inserted by a fold. -/
theorem wrapGo_tail :
    ∀ (ts : List (List Char)) (cur : List Char),
      ∀ l ∈ (wrapGo 76 cur ts).tail, ∃ r, l = ' ' :: r := by
  intro ts
  induction ts with
  | nil =>
    intro cur l hl
    simp [wrapGo] at hl
  | cons t ts ih =>
    intro cur l hl
    simp only [wrapGo] at hl
    split_ifs at hl with hfit
    · exact ih (cur ++ ' ' :: t) l hl
    · simp only [List.tail_cons] at hl
      rcases wrapGo_shape ts (' ' :: t) l hl with ⟨r, hr⟩ | h
      · exact ⟨t ++ r, by simp [hr]⟩
      · exact h

/-- Characters of the output lines come from the seed, the tokens, or
    the inserted continuation spaces. -/
theorem wrapGo_chars :
    ∀ (ts : List (List Char)) (cur : List Char), ∀ l ∈ wrapGo 76 cur ts,
      ∀ ch ∈ l, ch ∈ cur ∨ ch = ' ' ∨ ∃ t ∈ ts, ch ∈ t := by
  intro ts
  induction ts with
  | nil =>
    intro cur l hl ch hch
    simp only [wrapGo, List.mem_singleton] at hl
    subst hl
    exact Or.inl hch
  | cons t ts ih =>
    intro cur l hl ch hch
    simp only [wrapGo] at hl
    split_ifs at hl with hfit
    · rcases ih (cur ++ ' ' :: t) l hl ch hch with h | h | ⟨t', ht', h⟩
      · rcases List.mem_append.mp h with h2 | h2
        · exact Or.inl h2
        · rcases List.mem_cons.mp h2 with h3 | h3
          · exact Or.inr (Or.inl h3)
          · exact Or.inr (Or.inr ⟨t, by simp, h3⟩)
      · exact Or.inr (Or.inl h)
      · exact Or.inr (Or.inr ⟨t', by simp [ht'], h⟩)
    · rcases List.mem_cons.mp hl with h | h
      · subst h
        exact Or.inl hch
      · rcases ih (' ' :: t) l h ch hch with h2 | h2 | ⟨t', ht', h2⟩
        · rcases List.mem_cons.mp h2 with h3 | h3
          · exact Or.inr (Or.inl h3)
          · exact Or.inr (Or.inr ⟨t, by simp, h3⟩)
        · exact Or.inr (Or.inl h2)
        · exact Or.inr (Or.inr ⟨t', by simp [ht'], h2⟩)

theorem splitTok_chars :
    ∀ (v : List Char), ∀ t ∈ splitTok v, ∀ ch ∈ t, ch ∈ v := by
  intro v
  induction v with
  | nil =>
    intro t ht ch hch
    simp only [splitTok, List.mem_singleton] at ht
    subst ht
    simp at hch
  | cons c cs ih =>
    intro t ht ch hch
    simp only [splitTok] at ht
    cases hs : splitTok cs with
    | nil =>
      rw [hs] at ht
      simp only [List.mem_singleton] at ht
      subst ht
      rcases List.mem_cons.mp hch with h | h
      · simp [h]
      · simp at h
    | cons t0 ts0 =>
      rw [hs] at ht
      split_ifs at ht with hc
      · rcases List.mem_cons.mp ht with h | h
        · subst h
          simp at hch
        · have := ih t (hs ▸ h) ch hch
          simp [this]
      · rcases List.mem_cons.mp ht with h | h
        · subst h
          rcases List.mem_cons.mp hch with h2 | h2
          · simp [h2]
          · have := ih t0 (by rw [hs]; simp) ch h2
            simp [this]
        · have := ih t (by rw [hs]; simp [h]) ch hch
          simp [this]

/-- C9: in the header block, every header value is emitted as its own
    folded header line terminated by CRLF; no physical line of the fold
    exceeds 76 characters unless it is a single unbreakable atom (the
    glued `name: firsttoken` atom, or a continuation consisting of the
    fold's single space and one token longer than 75 characters); every
    fold consists of CRLF followed by a single space opening the
    continuation line; the literal space after the colon is part of the
    first line's atom and is never doubled by a fold; the produced lines
    contain no CR/LF of their own (so they are the physical lines). -/
theorem c9_header_folding (name value t1 : List Char)
    (ts : List (List Char))
    (hn : Char.ofNat 13 ∉ name ∧ Char.ofNat 10 ∉ name)
    (hv : Char.ofNat 13 ∉ value ∧ Char.ofNat 10 ∉ value)
    (hsplit : splitTok value = t1 :: ts) :
    (∀ l ∈ wrapHeaderLine name value, 76 < l.length →
      l = name ++ ':' :: ' ' :: t1 ∨
      ∃ t ∈ t1 :: ts, l = ' ' :: t ∧ 75 < t.length) ∧
    (∀ l ∈ (wrapHeaderLine name value).tail, ∃ r, l = ' ' :: r) ∧
    (∃ r, (wrapHeaderLine name value).head? =
      some ((name ++ ':' :: ' ' :: t1) ++ r)) ∧
    (∀ l ∈ wrapHeaderLine name value,
      Char.ofNat 13 ∉ l ∧ Char.ofNat 10 ∉ l) ∧
    encodeHeaderValue name value =
      List.intercalate ['\r', '\n'] (wrapHeaderLine name value) ++
        ['\r', '\n'] ∧
    (∀ (he : HeaderEncoder) (k v : String) (col : Nat) (encv : String),
      he.encode 0 v = .ok (col, encv) →
      encodeVals he k [v] =
        .ok (charBytes (encodeHeaderValue k.toList encv.toList))) := by
  have hwl : wrapHeaderLine name value =
      wrapGo 76 (name ++ ':' :: ' ' :: t1) ts := by
    unfold wrapHeaderLine
    rw [hsplit]
  refine ⟨?_, ?_, ?_, ?_, rfl, ?_⟩
  · intro l hl hlong
    rw [hwl] at hl
    rcases wrapGo_seed ts _ l hl with h | h | ⟨t, ht, h⟩
    · omega
    · exact Or.inl h
    · refine Or.inr ⟨t, by simp [ht], h, ?_⟩
      rw [h] at hlong
      simp only [List.length_cons] at hlong
      omega
  · intro l hl
    rw [hwl] at hl
    exact wrapGo_tail ts _ l hl
  · rw [hwl]
    exact wrapGo_head ts _
  · intro l hl
    rw [hwl] at hl
    have hmem : ∀ ch ∈ l, ch ∈ name ∨ ch = ':' ∨ ch = ' ' ∨ ch ∈ value := by
      intro ch hch
      rcases wrapGo_chars ts _ l hl ch hch with h | h | ⟨t, ht, h⟩
      · rcases List.mem_append.mp h with h2 | h2
        · exact Or.inl h2
        · rcases List.mem_cons.mp h2 with h3 | h3
          · exact Or.inr (Or.inl h3)
          · rcases List.mem_cons.mp h3 with h4 | h4
            · exact Or.inr (Or.inr (Or.inl h4))
            · exact Or.inr (Or.inr (Or.inr
                (splitTok_chars value t1 (by rw [hsplit]; simp) ch h4)))
      · exact Or.inr (Or.inr (Or.inl h))
      · exact Or.inr (Or.inr (Or.inr
          (splitTok_chars value t (by rw [hsplit]; simp [ht]) ch h)))
    constructor
    · intro hcr
      rcases hmem _ hcr with h | h | h | h
      · exact hn.1 h
      · exact absurd h (by decide)
      · exact absurd h (by decide)
      · exact hv.1 h
    · intro hlf
      rcases hmem _ hlf with h | h | h | h
      · exact hn.2 h
      · exact absurd h (by decide)
      · exact absurd h (by decide)
      · exact hv.2 h
  · intro he k v col encv henc
    simp only [encodeVals]
    rw [bind_ok henc]
    beta_reduce
    simp [pure, Except.pure]
    show Except.ok (charBytes (encodeHeaderValue k.data encv.data) ++
      ([] : List Nat)) = Except.ok (charBytes (encodeHeaderValue k.data encv.data))
    simp

theorem c9_witness :
    ((Char.ofNat 13 ∉ "Subject".toList ∧ Char.ofNat 10 ∉ "Subject".toList) ∧
      (Char.ofNat 13 ∉ "Hello world".toList ∧
        Char.ofNat 10 ∉ "Hello world".toList) ∧
      splitTok "Hello world".toList =
        "Hello".toList :: ["world".toList]) ∧
    ((∀ l ∈ wrapHeaderLine "Subject".toList "Hello world".toList,
        76 < l.length →
        l = "Subject".toList ++ ':' :: ' ' :: "Hello".toList ∨
        ∃ t ∈ "Hello".toList :: ["world".toList],
          l = ' ' :: t ∧ 75 < t.length) ∧
      (∀ l ∈ (wrapHeaderLine "Subject".toList "Hello world".toList).tail,
        ∃ r, l = ' ' :: r) ∧
      (∃ r, (wrapHeaderLine "Subject".toList "Hello world".toList).head? =
        some (("Subject".toList ++ ':' :: ' ' :: "Hello".toList) ++ r)) ∧
      (∀ l ∈ wrapHeaderLine "Subject".toList "Hello world".toList,
        Char.ofNat 13 ∉ l ∧ Char.ofNat 10 ∉ l) ∧
      encodeHeaderValue "Subject".toList "Hello world".toList =
        List.intercalate ['\r', '\n']
          (wrapHeaderLine "Subject".toList "Hello world".toList) ++
          ['\r', '\n'] ∧
      (∀ (he : HeaderEncoder) (k v : String) (col : Nat) (encv : String),
        he.encode 0 v = .ok (col, encv) →
        encodeVals he k [v] =
          .ok (charBytes (encodeHeaderValue k.toList encv.toList)))) := by
  refine ⟨⟨⟨by decide, by decide⟩, ⟨by decide, by decide⟩, by decide⟩, ?_⟩
  exact c9_header_folding "Subject".toList "Hello world".toList
    "Hello".toList ["world".toList] ⟨by decide, by decide⟩
    ⟨by decide, by decide⟩ (by decide)

/-- Externals whose media-type formatting always fails. -/
def extFail : Externals := { extM with formatMediaType := fun _ _ => "" }

/-- A leaf part with a content type and a disposition. -/
def p10 : Part :=
  .mk [] [] "text/plain" "" "inline" "" none "" "" none none

theorem c10_witness :
    (p10.contentType ≠ "" ∧ p10.disposition ≠ "" ∧
      extFail.formatMediaType p10.contentType
        (ctParams extFail
          (setupPre extFail (DefaultEncoder extFail) p10).2) = "" ∧
      extFail.formatMediaType p10.disposition (dispParams extFail p10) = "") ∧
    (hGet (setupMIMEHeaders extFail (DefaultEncoder extFail) p10).2.header
        hnContentType = [p10.contentType] ∧
      hGet (setupMIMEHeaders extFail (DefaultEncoder extFail) p10).2.header
        hnContentDisposition = [p10.disposition] ∧
      ∃ out, encodePart extFail (DefaultEncoder extFail) p10 = .ok out) := by
  refine ⟨⟨by decide, by decide, rfl, rfl⟩, ?_⟩
  exact c10_format_failure_falls_back extFail (DefaultEncoder extFail) p10
    (by decide) (by decide) rfl rfl

/-- An empty leaf part used as second child in concrete examples. -/
def c2W : Part := .mk [] [] "" "" "" "" none "" "" none none

/-- An empty leaf part whose next sibling is `c2W`. -/
def c1W : Part := .mk [] [] "" "" "" "" none "" "" none (some c2W)

/-- A parent part with boundary `"b"` and the two children
    `c1W`, `c2W`. -/
def pW : Part := .mk [] [] "" "" "" "" none "" "b" (some c1W) none

/-- The bytes `Encode` produces for `pW`. -/
def outW : List Nat := strBytes "\r\n--b\r\n\r\n--b\r\n\r\n--b--\r\n"

/-- An encoder differing from the default in its transfer-encoding
    determiner. -/
def e2W : Encoder :=
  { DefaultEncoder extM with transferEncodingDeterminer := constBase64Det }

theorem c8_witness :
    (pW.boundary = "b" ∧ ("b" : String) ≠ "" ∧ pW.firstChild = some c1W ∧
      c1W.nextSibling = some c2W ∧ c2W.nextSibling = none ∧
      encodePart extM (DefaultEncoder extM) pW = .ok outW) ∧
    (∃ hdr k1 k2,
      encodeHeader (DefaultEncoder extM)
          (setupMIMEHeaders extM (DefaultEncoder extM) pW).2 = .ok hdr ∧
      partEncode extM c1W = .ok k1 ∧
      partEncode extM c2W = .ok k2 ∧
      outW = hdr ++
        (if pW.content.isEmpty then []
         else crnlB ++ encodeContent extM
           (setupMIMEHeaders extM (DefaultEncoder extM) pW).1 pW.content) ++
        strBytes ("\r\n--" ++ "b" ++ "\r\n") ++ k1 ++
        strBytes ("\r\n--" ++ "b" ++ "\r\n") ++ k2 ++
        strBytes ("\r\n--" ++ "b" ++ "--" ++ "\r\n")) := by
  have henc : encodePart extM (DefaultEncoder extM) pW = .ok outW := by
    simp only [pW, c1W, c2W, encodePart, childEncodes]
    rfl
  exact ⟨⟨rfl, by decide, rfl, rfl, rfl, henc⟩,
    c8_multipart_layout extM (DefaultEncoder extM) pW c1W c2W outW "b"
      rfl (by decide) rfl rfl rfl henc⟩

theorem c2_witness :
    (pW.firstChild = some c1W ∧
      encodePart extM (DefaultEncoder extM) pW = .ok outW ∧
      encodePart extM e2W pW = .ok outW) ∧
    (∃ hdr1 hdr2 blocks,
      encodeHeader (DefaultEncoder extM)
          (setupMIMEHeaders extM (DefaultEncoder extM) pW).2 = .ok hdr1 ∧
      encodeHeader e2W (setupMIMEHeaders extM e2W pW).2 = .ok hdr2 ∧
      childEncodes extM c1W = .ok blocks ∧
      outW = hdr1 ++ rootBodyBlock extM (DefaultEncoder extM) pW ++
        (blocks.map (fun bb =>
          boundaryMarker extM (DefaultEncoder extM) pW ++ crnlB ++ bb)).flatten ++
        boundaryMarker extM (DefaultEncoder extM) pW ++ strBytes "--" ++ crnlB ∧
      outW = hdr2 ++ rootBodyBlock extM e2W pW ++
        (blocks.map (fun bb =>
          boundaryMarker extM e2W pW ++ crnlB ++ bb)).flatten ++
        boundaryMarker extM e2W pW ++ strBytes "--" ++ crnlB) := by
  have h1 : encodePart extM (DefaultEncoder extM) pW = .ok outW := by
    simp only [pW, c1W, c2W, encodePart, childEncodes]
    rfl
  have h2 : encodePart extM e2W pW = .ok outW := by
    simp only [pW, c1W, c2W, encodePart, childEncodes]
    rfl
  exact ⟨⟨rfl, h1, h2⟩,
    c2_children_use_default_encoder extM (DefaultEncoder extM) e2W pW c1W
      outW outW rfl h1 h2⟩

/-- The content-only part of the spec's testable property: empty header
    map, no children, content `"No header, only content."`. -/
def contentOnlyPart : Part :=
  .mk [] (strBytes "No header, only content.") "" "" "" "" none "" "" none none

/-- C3 counterexample: encoding the content-only part writes a CRLF
    (the blank separator line the source always emits before non-empty
    content) followed by the content bytes — not the bare content bytes
    the claim describes. -/
theorem c3_counterexample :
    encodePart extM (DefaultEncoder extM) contentOnlyPart =
      .ok (crnlB ++ strBytes "No header, only content.") ∧
    crnlB ++ strBytes "No header, only content." ≠
      strBytes "No header, only content." := by
  constructor
  · simp only [encodePart, contentOnlyPart]
    rfl
  · decide

/-- C3 (amended): encoding a part with an empty (or nil) header map, no
    children and content `"No header, only content."` writes a single
    blank CRLF line followed by exactly those content bytes; no header
    lines are written.  (The source unconditionally writes the CRLF
    header/body separator before non-empty content, even when the header
    block is empty.) -/
theorem c3_content_only_blank_line_then_content (ext : Externals) :
    encodePart ext (DefaultEncoder ext) contentOnlyPart =
      .ok (crnlB ++ strBytes "No header, only content.") := by
  simp only [encodePart, contentOnlyPart]
  rfl

end Enmime
